import Mathlib

/-!
Verification development for the scribble embedded JSON document store
(`scribble.go`).  The Go source is shallowly embedded here:

* the path manipulation of the Go standard library (`filepath.Clean`,
  `filepath.Join` on the unix build, `strings.Count`, `strings.HasPrefix`)
  is translated into executable functions over `List Char`;
* the filesystem is modelled as an explicit state (`FS`): a finite
  association list from file paths to contents plus a set of directories;
  each operation of the driver becomes a state-passing function;
* JSON marshalling is an external collaborator of the store (the spec keeps
  the encode/decode primitives out of scope), so `Write`/`Read` are
  parametrised by a marshal/unmarshal pair; round-trip theorems take the
  codec round-trip as a hypothesis and witnesses instantiate it with a
  concrete executable codec;
* `sync.Mutex` values and the mutex registry of the driver are modelled
  with Go value-copy semantics: `getOrCreateMutex` returns a copy of the
  stored mutex, exactly as the Go code does.
-/

set_option maxRecDepth 4000

namespace Scribble

/-! ## Path components

Go `filepath.Clean` (unix build) normalises a path lexically: it splits the
path at `/` separators, eliminates `.` components and empty components,
resolves `..` against preceding components (dropping `..` at the root) and
rejoins.  We embed this on `List Char`. -/

/-- Segment of a path: the characters between two separators. -/
abbrev Seg := List Char

/-- The single-dot segment. -/
def dotSeg : Seg := ['.']

/-- The double-dot segment. -/
def ddSeg : Seg := ['.', '.']

/-- Split a character list at every `/`.  Always returns a non-empty list;
empty segments (from doubled or leading separators) are kept. -/
def splitSlash : List Char → List Seg
  | [] => [[]]
  | c :: cs =>
    let r := splitSlash cs
    if c = '/' then [] :: r else (c :: r.headD []) :: r.tail

/-- Segments of a path: the non-empty pieces between separators. -/
def comps (l : List Char) : List Seg :=
  (splitSlash l).filter (fun s => !s.isEmpty)

/-- One step of the `Clean` loop of Go `path/filepath`: processing segment
`c` against the already-emitted output `out`.  `ro` says whether the path is
rooted.  A `.` is dropped; a `..` pops the last emitted segment when one is
available (the Go condition `out.w > dotdot`), is dropped at the root, and
is kept otherwise; any other segment is emitted. -/
def stepSeg (ro : Bool) (out : List Seg) (c : Seg) : List Seg :=
  if c = dotSeg then out
  else if c = ddSeg then
    if out ≠ [] ∧ out.getLast? ≠ some ddSeg then out.dropLast
    else if ro then out else out ++ [ddSeg]
  else out ++ [c]

/-- Process all segments of a path, as the loop of Go `filepath.Clean`. -/
def procSegs (ro : Bool) (cs : List Seg) : List Seg :=
  cs.foldl (stepSeg ro) []

/-- Rejoin segments with `/` separators. -/
def intercSlash : List Seg → List Char
  | [] => []
  | [c] => c
  | c :: cs => c ++ '/' :: intercSlash cs

/-- Final assembly of Go `filepath.Clean`: a rooted path gets a leading
slash; an empty unrooted result becomes `.`. -/
def renderSegs (ro : Bool) (cs : List Seg) : List Char :=
  if ro then '/' :: intercSlash cs
  else if cs = [] then dotSeg else intercSlash cs

/-- Whether a path is rooted (begins with a separator). -/
def isRootedL : List Char → Bool
  | [] => false
  | c :: _ => c == '/'

/-- Go `filepath.Clean` on the unix build, over the character list of the
path.  `Clean("")` is `"."`. -/
def cleanL (l : List Char) : List Char :=
  if l = [] then dotSeg
  else renderSegs (isRootedL l) (procSegs (isRootedL l) (comps l))

/-- Go `filepath.Clean` on strings. -/
def clean (s : String) : String := ⟨cleanL s.data⟩

/-- Characters of `strings.Join(elems, "/")`. -/
def joinChars : List String → List Char
  | [] => []
  | [s] => s.data
  | s :: ss => s.data ++ '/' :: joinChars ss

/-- Go `filepath.Join`: drop leading empty elements, join the rest from the
first non-empty one with `/` and clean; all elements empty gives `""`. -/
def goJoin (elems : List String) : String :=
  match elems.dropWhile (fun e => e == "") with
  | [] => ""
  | es => ⟨cleanL (joinChars es)⟩

/-- `filepath.Join(a, b)`. -/
def join2 (a b : String) : String := goJoin [a, b]

/-- `filepath.Join(a, b, c)`. -/
def join3 (a b c : String) : String := goJoin [a, b, c]

/-- Directory part of a path: the characters strictly before the last
separator; empty when the path has no separator (the property proofs only
ever compare two such values). -/
def dirOfL (l : List Char) : List Char :=
  ((l.reverse.dropWhile (fun c => !(c == '/'))).drop 1).reverse

/-- Base name of a path: the characters after the last separator. -/
def baseNameL (l : List Char) : List Char :=
  (l.reverse.takeWhile (fun c => !(c == '/'))).reverse

/-- Directory part, on strings. -/
def dirOf (s : String) : String := ⟨dirOfL s.data⟩

/-- Base name, on strings. -/
def baseName (s : String) : String := ⟨baseNameL s.data⟩

/-! ## Filesystem model

An explicit state: files as an association list from path to content, plus
the set of existing directories.  This is the state the driver mutates. -/

/-- Error kinds returned by the driver (the Go code returns `error` values;
we name the distinct failure sites). -/
inductive Err where
  | unsafePath
  | missingCollection
  | missingResource
  | marshalFailed
  | renameFailed
  | notFound (p : String)
  | readFailed (p : String)
  | dirNotExist (p : String)
  | osErr (msg : String)
deriving DecidableEq, Repr

/-- Filesystem state: file paths with contents, and directories. -/
structure FS where
  files : List (String × String)
  dirs : List String
deriving DecidableEq, Repr

namespace FS

/-- Content of the file at `p`, if a file exists there. -/
def lookupF (fs : FS) (p : String) : Option String := fs.files.lookup p

/-- Whether a directory exists at `p`. -/
def isDirP (fs : FS) (p : String) : Bool := fs.dirs.contains p

/-- `os.Stat` succeeds: something (file or directory) exists at `p`. -/
def statP (fs : FS) (p : String) : Bool := (fs.lookupF p).isSome || fs.isDirP p

/-- `os.MkdirAll(d)`: create `d` if absent (the model keeps only the
directory itself; intermediate ancestors play no role in any claim). -/
def mkdirAll (fs : FS) (d : String) : FS :=
  if fs.isDirP d then fs else ⟨fs.files, d :: fs.dirs⟩

/-- `ioutil.WriteFile(p, c)`: create or truncate-and-replace the file. -/
def writeFile (fs : FS) (p c : String) : FS :=
  ⟨(p, c) :: fs.files.filter (fun q => !(q.1 == p)), fs.dirs⟩

/-- `os.Rename(o, n)`: move the file at `o` onto `n`, replacing any file
already at `n` in the same indivisible step; fails if `o` is absent. -/
def renameF (fs : FS) (o n : String) : Option FS :=
  match fs.lookupF o with
  | none => none
  | some c =>
    some ⟨(n, c) :: fs.files.filter (fun q => !(q.1 == o) && !(q.1 == n)), fs.dirs⟩

end FS

/-- Whether path `p` is `d` itself or lies strictly below directory `d`. -/
def underP (d p : String) : Bool :=
  p == d || List.isPrefixOf (d.data ++ ['/']) p.data

/-- `os.RemoveAll(t)`: delete `t` and everything below it. -/
def FS.removeAll (fs : FS) (t : String) : FS :=
  ⟨fs.files.filter (fun q => !underP t q.1), fs.dirs.filter (fun q => !underP t q)⟩

/-! ## The mutex registry

`Driver.getOrCreateMutex` stores `sync.Mutex` values in a map and returns
the map entry *by value*: the caller receives an independent copy of the
stored mutex, and `Lock()` on that copy never changes the stored one.  The
embedding keeps exactly this value-copy semantics. -/

/-- A `sync.Mutex` value; the zero value is unlocked. -/
structure GoMutex where
  locked : Bool
deriving DecidableEq, Repr

/-- `Lock()` on a mutex value the caller holds: marks that copy locked
(it blocks instead when that copy is already locked). -/
def lockMutex (_ : GoMutex) : GoMutex := ⟨true⟩

/-- The mutex registry part of the driver state. -/
structure LockReg where
  mutexes : List (String × GoMutex)
deriving DecidableEq, Repr

/-- `getOrCreateMutex`: under the registry guard, look the key up; insert a
fresh zero mutex when absent.  The Go map access `m, ok := d.mutexes[k]`
and the `return m` both copy the mutex value, so the caller gets a copy of
the stored entry, never a reference to it. -/
def getOrCreateMutex (d : LockReg) (k : String) : GoMutex × LockReg :=
  match d.mutexes.lookup k with
  | some m => (m, d)
  | none => (⟨false⟩, ⟨(k, ⟨false⟩) :: d.mutexes⟩)

/-! ## The driver -/

/-- The scribble driver handle: root directory and mutex registry. -/
structure Driver where
  dir : String
  mutexes : List (String × GoMutex)
deriving DecidableEq, Repr

/-- The guard of `New`:
`dir == "/" || dir == "C:\\" || dir == "~" ||
 (strings.HasPrefix(dir, "/home/") && strings.Count(dir, "/") <= 2)`
applied to the cleaned path. -/
def unsafeDir (dir : String) : Bool :=
  dir == "/" || dir == "C:\\" || dir == "~" ||
    (List.isPrefixOf "/home/".data dir.data && decide (dir.data.count '/' ≤ 2))

/-- `New(dir, options)`.  The logger plumbing is out of scope.  `mkdirFail`
is the oracle outcome of `os.MkdirAll` when the root must be created:
`none` means creation succeeds, `some e` the creation error `e` (in which
case the filesystem is not extended).  Mirrors the source exactly: the
unsafe guard returns `(nil, err)` before touching the filesystem; an
existing root is reused; otherwise the function returns the freshly built
driver handle *together with* whatever `os.MkdirAll` returned. -/
def goNew (dir0 : String) (fs : FS) (mkdirFail : Option Err) :
    FS × Option Driver × Option Err :=
  let dir := clean dir0
  if unsafeDir dir then (fs, none, some .unsafePath)
  else if fs.statP dir then (fs, some ⟨dir, []⟩, none)
  else
    match mkdirFail with
    | none => (fs.mkdirAll dir, some ⟨dir, []⟩, none)
    | some e => (fs, some ⟨dir, []⟩, some e)

/-- `Driver.Write(collection, resource, v)` in the sequential case, with the
marshaller abstracted (JSON encoding is an external collaborator in the
spec).  Validation happens before any filesystem access; then the collection
directory is created, the payload marshalled, written whole to
`fnlPath + ".tmp"`, and renamed onto `fnlPath`. -/
def goWrite {α : Type} (marshal : α → Option String)
    (root collection resource : String) (v : α) (fs : FS) : FS × Option Err :=
  if collection = "" then (fs, some .missingCollection)
  else if resource = "" then (fs, some .missingResource)
  else
    let dir := join2 root collection
    let fnlPath := join2 dir resource
    let tmpPath := fnlPath ++ ".tmp"
    let fs1 := fs.mkdirAll dir
    match marshal v with
    | none => (fs1, some .marshalFailed)
    | some b =>
      let fs2 := fs1.writeFile tmpPath b
      match fs2.renameF tmpPath fnlPath with
      | some fs3 => (fs3, none)
      | none => (fs2, some .renameFailed)

/-- `Driver.Read(collection, resource, v)` up to the raw bytes.  The Go
code performs no filesystem mutation (stat and read only), so the embedding
is a pure function of the state. -/
def goReadRaw (root collection resource : String) (fs : FS) : Except Err String :=
  if collection = "" then .error .missingCollection
  else if resource = "" then .error .missingResource
  else
    let record := join3 root collection resource
    if fs.statP record then
      match fs.lookupF record with
      | some b => .ok b
      | none => .error (.readFailed record)
    else .error (.notFound record)

/-- `Driver.Read` including `json.Unmarshal` of the raw bytes, with the
decoder abstracted. -/
def goRead {α : Type} (unmarshal : String → Option α)
    (root collection resource : String) (fs : FS) : Except Err α :=
  match goReadRaw root collection resource fs with
  | .error e => .error e
  | .ok b =>
    match unmarshal b with
    | some v => .ok v
    | none => .error .marshalFailed

/-- Files directly inside directory `dir`: pairs of base name and content. -/
def FS.childFiles (fs : FS) (dir : String) : List (String × String) :=
  fs.files.filterMap (fun pc =>
    if List.isPrefixOf (dir.data ++ ['/']) pc.1.data then
      let base : List Char := pc.1.data.drop (dir.data.length + 1)
      if base ≠ [] ∧ '/' ∉ base then some (⟨base⟩, pc.2) else none
    else none)

/-- `Driver.ReadAll(collection)`: validate, stat the collection directory,
then read every file in it.  No filesystem mutation. -/
def goReadAll (root collection : String) (fs : FS) : Except Err (List String) :=
  if collection = "" then .error .missingCollection
  else
    let dir := join2 root collection
    if fs.statP dir then .ok ((fs.childFiles dir).map (·.2))
    else .error (.dirNotExist dir)

/-- `Driver.Delete(collection, resource)`: clean both names, validate the
collection, join them into the lock key and target path, then remove the
target recursively when it exists and succeed silently when it does not. -/
def goDelete (root collection0 resource0 : String) (fs : FS) : FS × Option Err :=
  let resource := clean resource0
  let collection := clean collection0
  if collection = "" ∨ collection = "/" ∨ collection = "." then
    (fs, some .missingCollection)
  else
    let path := join2 collection resource
    let dir := join2 root path
    if fs.statP dir then (fs.removeAll dir, none) else (fs, none)

/-! ## Two concurrent writers

For the mutual-exclusion claim we model two callers of
`Write("fish", "x", v)` with distinct payloads, at the granularity of the
system calls behind `ioutil.WriteFile` and `os.Rename`: opening the shared
temporary path with `O_CREATE|O_TRUNC`, the individual `write(2)` calls of
the `File.Write` loop (the kernel may split a buffer across several calls),
and the final rename.  Both writers address the same temporary path
`root/fish/x.tmp`, so a second open truncates the file the first writer is
filling.  Lock acquisition goes through `getOrCreateMutex` exactly as in
the source; a caller blocks only when the mutex copy it receives is already
locked. -/

/-- One syscall-level action of a writer. -/
inductive WOp where
  | acq
  | openT
  | wr (data : String)
  | ren
deriving DecidableEq, Repr

/-- A scheduled action: which writer (`isA`) performs which action. -/
structure WStep where
  isA : Bool
  op : WOp
deriving DecidableEq, Repr

/-- Shared state of the two-writer execution: the registry, the temporary
file (existence and content), the published final file, and per-writer
bookkeeping (lock held, file offset, rename outcome). -/
structure CSt where
  reg : LockReg
  tmpExists : Bool
  tmpContent : List Char
  fnlContent : Option (List Char)
  aHold : Bool
  bHold : Bool
  aOff : Nat
  bOff : Nat
  aRen : Option Bool
  bRen : Option Bool
deriving DecidableEq, Repr

/-- Writing `d` at offset `off` of a file holding `l`. -/
def overwriteAt (l : List Char) (off : Nat) (d : List Char) : List Char :=
  l.take off ++ d ++ l.drop (off + d.length)

/-- Small-step semantics of the two-writer execution. -/
def stepC (st : CSt) (s : WStep) : CSt :=
  match s.op with
  | .acq =>
    let (m, reg') := getOrCreateMutex st.reg "fish"
    if m.locked then st
    else if s.isA then { st with reg := reg', aHold := true }
    else { st with reg := reg', bHold := true }
  | .openT =>
    if s.isA then { st with tmpExists := true, tmpContent := [], aOff := 0 }
    else { st with tmpExists := true, tmpContent := [], bOff := 0 }
  | .wr d =>
    if s.isA then
      { st with tmpContent := overwriteAt st.tmpContent st.aOff d.data,
                aOff := st.aOff + d.data.length }
    else
      { st with tmpContent := overwriteAt st.tmpContent st.bOff d.data,
                bOff := st.bOff + d.data.length }
  | .ren =>
    if st.tmpExists then
      if s.isA then
        { st with fnlContent := some st.tmpContent, tmpExists := false, aRen := some true }
      else
        { st with fnlContent := some st.tmpContent, tmpExists := false, bRen := some true }
    else
      if s.isA then { st with aRen := some false } else { st with bRen := some false }

/-- Initial state: fresh registry, no temporary file, no final file. -/
def initC : CSt := ⟨⟨[]⟩, false, [], none, false, false, 0, 0, none, none⟩

/-- Run a schedule of interleaved writer actions. -/
def runC (sched : List WStep) : CSt := sched.foldl stepC initC

/-- The actions of one `Write` call whose payload is written in the given
chunks: acquire the collection mutex, open-truncate the temporary file,
write the chunks, rename. -/
def writeProg (chunks : List String) : List WOp :=
  .acq :: .openT :: (chunks.map .wr ++ [.ren])

/-- The actions a schedule assigns to one writer, in order. -/
def projSched (isA : Bool) (sched : List WStep) : List WOp :=
  (sched.filter (fun s => s.isA == isA)).map (·.op)

/-! ## Name predicates -/

/-- A plain path segment: non-empty, without separators, and not one of the
special segments `.` and `..`.  Ordinary collection and resource names are
plain segments. -/
def plainName (s : String) : Prop :=
  s.data ≠ [] ∧ '/' ∉ s.data ∧ s.data ≠ dotSeg ∧ s.data ≠ ddSeg

instance (s : String) : Decidable (plainName s) := by
  unfold plainName; infer_instance

/-- In an unrooted path the `..` segments surviving processing form a
prefix of the output. -/
def ddPre (out : List Seg) : Prop :=
  ∃ k rest, out = List.replicate k ddSeg ++ rest ∧ ddSeg ∉ rest

/-- The schedule exhibiting the interleaving for the mutual-exclusion
claim: writer A marshals `"AAAA"` (written in two chunks), writer B
marshals `"BB"`; B truncates the shared temporary file while A is between
its two chunks, and A publishes the mixed content. -/
def schedC2 : List WStep :=
  [⟨true, .acq⟩, ⟨false, .acq⟩, ⟨true, .openT⟩, ⟨true, .wr "AA"⟩,
   ⟨false, .openT⟩, ⟨false, .wr "BB"⟩, ⟨true, .wr "AA"⟩, ⟨true, .ren⟩, ⟨false, .ren⟩]

/-- A concrete executable codec used by the witnesses of the theorems that
abstract over the JSON marshaller. -/
def marshalBool (b : Bool) : Option String :=
  some (if b then "true" else "false")

/-- Decoder matching `marshalBool`. -/
def unmarshalBool (s : String) : Option Bool :=
  if s = "true" then some true else if s = "false" then some false else none

/-! ## Basic checks -/

example : clean "" = "." := by decide
example : clean "." = "." := by decide
example : clean "/" = "/" := by decide
example : clean "~" = "~" := by decide
example : clean "a/b/../../../c" = "../c" := by decide
example : clean "/../../a" = "/a" := by decide
example : clean "//x/" = "/x" := by decide
example : clean "./x" = "x" := by decide
example : clean "/home/user/x" = "/home/user/x" := by decide
example : clean "a/.." = "." := by decide
example : join2 "a" "" = "a" := by decide
example : join2 "" "b" = "b" := by decide
example : join2 "/tmp/db" "fish" = "/tmp/db/fish" := by decide
example : join3 "/tmp/db" "fish" "redfish" = "/tmp/db/fish/redfish" := by decide
example : join2 "fish" ".." = "." := by decide
example : join2 "/tmp/db" "." = "/tmp/db" := by decide

example :
    goWrite (fun b : Bool => some (toString b)) "/tmp/db" "fish" "redfish" true ⟨[], ["/tmp/db"]⟩ =
      (⟨[("/tmp/db/fish/redfish", "true")], ["/tmp/db/fish", "/tmp/db"]⟩, none) := by decide
example :
    goReadRaw "/tmp/db" "fish" "redfish" ⟨[("/tmp/db/fish/redfish", "true")], ["/tmp/db/fish", "/tmp/db"]⟩ =
      .ok "true" := by rfl
example :
    goDelete "/tmp/db" "fish" ".." ⟨[("/tmp/db/fish/redfish", "true")], ["/tmp/db/fish", "/tmp/db"]⟩ =
      (⟨[], []⟩, none) := by decide
example :
    goDelete "/tmp/db" "fish" "" ⟨[("/tmp/db/fish/redfish", "true")], ["/tmp/db/fish", "/tmp/db"]⟩ =
      (⟨[], ["/tmp/db"]⟩, none) := by decide
example : unsafeDir "/home/user" = true := by decide
example : unsafeDir "/home/user/x" = false := by decide

/-! ## Lemmas: splitting paths -/

theorem splitSlash_ne_nil (l : List Char) : splitSlash l ≠ [] := by
  cases l with
  | nil => simp [splitSlash]
  | cons c cs =>
    simp only [splitSlash]
    split <;> simp

theorem splitSlash_exists_cons (l : List Char) : ∃ h t, splitSlash l = h :: t := by
  cases hl : splitSlash l with
  | nil => exact absurd hl (splitSlash_ne_nil l)
  | cons h t => exact ⟨h, t, rfl⟩

theorem splitSlash_cons_slash (l : List Char) : splitSlash ('/' :: l) = [] :: splitSlash l := by
  simp [splitSlash]

theorem splitSlash_cons_ne (c : Char) (l : List Char) (h : ¬ c = '/') :
    splitSlash (c :: l) = (c :: (splitSlash l).headD []) :: (splitSlash l).tail := by
  simp [splitSlash, h]

theorem splitSlash_append (a b : List Char) :
    splitSlash (a ++ '/' :: b) = splitSlash a ++ splitSlash b := by
  induction a with
  | nil => simp [splitSlash_cons_slash, splitSlash]
  | cons c cs ih =>
    by_cases hc : c = '/'
    · subst hc
      rw [List.cons_append, splitSlash_cons_slash, splitSlash_cons_slash, ih]
      rfl
    · obtain ⟨h, t, ht⟩ := splitSlash_exists_cons cs
      rw [List.cons_append, splitSlash_cons_ne c _ hc, splitSlash_cons_ne c cs hc, ih, ht]
      simp

theorem splitSlash_no_slash (l : List Char) (h : '/' ∉ l) : splitSlash l = [l] := by
  induction l with
  | nil => rfl
  | cons c cs ih =>
    have hc : ¬ c = '/' := fun e => h (e ▸ List.mem_cons_self c cs)
    rw [splitSlash_cons_ne c cs hc, ih (fun m => h (List.mem_cons_of_mem c m))]
    simp

theorem mem_splitSlash_no_slash (l : List Char) : ∀ s ∈ splitSlash l, '/' ∉ s := by
  induction l with
  | nil =>
    intro s hs
    simp [splitSlash] at hs
    simp [hs]
  | cons c cs ih =>
    intro s hs
    obtain ⟨h, t, ht⟩ := splitSlash_exists_cons cs
    by_cases hc : c = '/'
    · subst hc
      rw [splitSlash_cons_slash] at hs
      rcases List.mem_cons.mp hs with h1 | h1
      · simp [h1]
      · exact ih s h1
    · rw [splitSlash_cons_ne c cs hc, ht] at hs
      simp only [List.headD_cons, List.tail_cons] at hs
      rcases List.mem_cons.mp hs with h1 | h1
      · subst h1
        intro hm
        rcases List.mem_cons.mp hm with h2 | h2
        · exact hc h2.symm
        · exact ih h (by rw [ht]; exact List.mem_cons_self h t) h2
      · exact ih s (by rw [ht]; exact List.mem_cons_of_mem h h1)

/-! ## Lemmas: path segments -/

theorem comps_append (a b : List Char) : comps (a ++ '/' :: b) = comps a ++ comps b := by
  unfold comps
  rw [splitSlash_append, List.filter_append]

theorem comps_cons_slash (l : List Char) : comps ('/' :: l) = comps l := by
  unfold comps
  rw [splitSlash_cons_slash]
  simp

theorem comps_no_slash (l : List Char) (h : '/' ∉ l) (hne : l ≠ []) : comps l = [l] := by
  unfold comps
  rw [splitSlash_no_slash l h]
  simp [hne]

theorem mem_comps (l : List Char) : ∀ s ∈ comps l, s ≠ [] ∧ '/' ∉ s := by
  intro s hs
  unfold comps at hs
  have h1 := List.mem_filter.mp hs
  refine ⟨?_, mem_splitSlash_no_slash l s h1.1⟩
  simpa using h1.2

/-! ## Lemmas: the segment-processing loop -/

theorem stepSeg_dot (ro : Bool) (out : List Seg) : stepSeg ro out dotSeg = out := by
  simp [stepSeg]

theorem stepSeg_plain (ro : Bool) (out : List Seg) (c : Seg)
    (h1 : c ≠ dotSeg) (h2 : c ≠ ddSeg) : stepSeg ro out c = out ++ [c] := by
  simp [stepSeg, h1, h2]

theorem foldl_stepSeg_plain (ro : Bool) (cs : List Seg) (acc : List Seg)
    (h : ∀ c ∈ cs, c ≠ dotSeg ∧ c ≠ ddSeg) :
    cs.foldl (stepSeg ro) acc = acc ++ cs := by
  induction cs generalizing acc with
  | nil => simp
  | cons c cs ih =>
    have hc := h c (List.mem_cons_self c cs)
    rw [List.foldl_cons, stepSeg_plain ro acc c hc.1 hc.2,
      ih _ (fun d hd => h d (List.mem_cons_of_mem c hd))]
    simp

theorem stepSeg_dd_replicate (j : Nat) :
    stepSeg false (List.replicate j ddSeg) ddSeg = List.replicate (j + 1) ddSeg := by
  unfold stepSeg
  rw [if_neg (by decide), if_pos rfl]
  cases j with
  | zero => simp
  | succ j =>
    rw [if_neg, if_neg (by decide)]
    · rw [List.replicate_succ' (j + 1) ddSeg]
    · intro hcon
      apply hcon.2
      rw [List.replicate_succ' j ddSeg, List.getLast?_concat]

theorem foldl_stepSeg_dd (k j : Nat) :
    (List.replicate k ddSeg).foldl (stepSeg false) (List.replicate j ddSeg) =
      List.replicate (j + k) ddSeg := by
  induction k generalizing j with
  | zero => simp
  | succ k ih =>
    rw [List.replicate_succ, List.foldl_cons, stepSeg_dd_replicate j, ih (j + 1)]
    congr 1
    omega

theorem mem_stepSeg (ro : Bool) (out : List Seg) (c s : Seg) (hs : s ∈ stepSeg ro out c) :
    s ∈ out ∨ (s = c ∧ c ≠ dotSeg ∧ c ≠ ddSeg) ∨ (s = ddSeg ∧ ro = false) := by
  unfold stepSeg at hs
  split at hs
  · exact .inl hs
  · split at hs
    · split at hs
      · exact .inl (List.dropLast_subset out hs)
      · split at hs
        · exact .inl hs
        · rcases List.mem_append.mp hs with h1 | h1
          · exact .inl h1
          · next h2 h3 h4 h5 =>
            exact .inr (.inr ⟨List.mem_singleton.mp h1, by simpa using h5⟩)
    · next h1 h2 =>
      rcases List.mem_append.mp hs with h3 | h3
      · exact .inl h3
      · exact .inr (.inl ⟨List.mem_singleton.mp h3, h1, h2⟩)

theorem foldl_stepSeg_wf (ro : Bool) (cs : List Seg) :
    ∀ acc, (∀ c ∈ cs, c ≠ [] ∧ '/' ∉ c) → (∀ s ∈ acc, s ≠ [] ∧ '/' ∉ s) →
      ∀ s ∈ cs.foldl (stepSeg ro) acc, s ≠ [] ∧ '/' ∉ s := by
  induction cs with
  | nil =>
    intro acc _ hacc
    simpa using hacc
  | cons c cs ih =>
    intro acc hcs hacc s hs
    rw [List.foldl_cons] at hs
    refine ih (stepSeg ro acc c) (fun d hd => hcs d (List.mem_cons_of_mem c hd)) ?_ s hs
    intro t ht
    rcases mem_stepSeg ro acc c t ht with h1 | h1 | h1
    · exact hacc t h1
    · rw [h1.1]
      exact hcs c (List.mem_cons_self c cs)
    · rw [h1.1]
      exact ⟨by decide, by decide⟩

theorem wf_procSegs_comps (ro : Bool) (l : List Char) :
    ∀ s ∈ procSegs ro (comps l), s ≠ [] ∧ '/' ∉ s :=
  foldl_stepSeg_wf ro (comps l) [] (mem_comps l) (by simp)

theorem dot_not_mem_foldl (ro : Bool) (cs : List Seg) (acc : List Seg)
    (hacc : dotSeg ∉ acc) : dotSeg ∉ cs.foldl (stepSeg ro) acc := by
  induction cs generalizing acc with
  | nil => simpa using hacc
  | cons c cs ih =>
    rw [List.foldl_cons]
    refine ih (stepSeg ro acc c) (fun hmem => ?_)
    rcases mem_stepSeg ro acc c dotSeg hmem with h1 | h1 | h1
    · exact hacc h1
    · exact h1.2.1 h1.1.symm
    · exact absurd h1.1 (by decide)

theorem dot_not_mem_procSegs (ro : Bool) (cs : List Seg) : dotSeg ∉ procSegs ro cs :=
  dot_not_mem_foldl ro cs [] (by simp)

theorem dd_not_mem_foldl_rooted (cs : List Seg) (acc : List Seg)
    (hacc : ddSeg ∉ acc) : ddSeg ∉ cs.foldl (stepSeg true) acc := by
  induction cs generalizing acc with
  | nil => simpa using hacc
  | cons c cs ih =>
    rw [List.foldl_cons]
    refine ih (stepSeg true acc c) (fun hmem => ?_)
    rcases mem_stepSeg true acc c ddSeg hmem with h1 | h1 | h1
    · exact hacc h1
    · exact h1.2.2 h1.1.symm
    · exact absurd h1.2 (by decide)

theorem dd_not_mem_procSegs_rooted (cs : List Seg) : ddSeg ∉ procSegs true cs :=
  dd_not_mem_foldl_rooted cs [] (by simp)

theorem ddPre_stepSeg (out : List Seg) (c : Seg) (h : ddPre out) :
    ddPre (stepSeg false out c) := by
  obtain ⟨k, rest, rfl, hrest⟩ := h
  by_cases h1 : c = dotSeg
  · rw [h1, stepSeg_dot]
    exact ⟨k, rest, rfl, hrest⟩
  by_cases h2 : c = ddSeg
  · subst h2
    unfold stepSeg
    rw [if_neg h1, if_pos rfl]
    by_cases h3 : List.replicate k ddSeg ++ rest ≠ [] ∧
        (List.replicate k ddSeg ++ rest).getLast? ≠ some ddSeg
    · rw [if_pos h3]
      have hrne : rest ≠ [] := by
        intro h4
        subst h4
        rcases h3 with ⟨hne, hlast⟩
        rw [List.append_nil] at hne hlast
        cases k with
        | zero => exact hne rfl
        | succ k =>
          apply hlast
          rw [List.replicate_succ' k ddSeg, List.getLast?_concat]
      refine ⟨k, rest.dropLast, ?_, fun hm => hrest (List.dropLast_subset rest hm)⟩
      rw [List.dropLast_append_of_ne_nil _ hrne]
    · rw [if_neg h3, if_neg (by decide)]
      rw [not_and_or, not_ne_iff, not_ne_iff] at h3
      have hrnil : rest = [] := by
        rcases h3 with h3 | h3
        · exact (List.append_eq_nil.mp h3).2
        · by_contra h4
          apply hrest
          rw [List.getLast?_append_of_ne_nil _ h4] at h3
          exact List.mem_of_mem_getLast? h3
      subst hrnil
      rw [List.append_nil]
      exact ⟨k + 1, [], by rw [List.append_nil, List.replicate_succ' k ddSeg], by simp⟩
  · rw [stepSeg_plain false _ c h1 h2]
    refine ⟨k, rest ++ [c], by rw [List.append_assoc], fun hm => ?_⟩
    rcases List.mem_append.mp hm with h3 | h3
    · exact hrest h3
    · exact h2 (List.mem_singleton.mp h3).symm

theorem ddPre_foldl (cs : List Seg) (acc : List Seg) (hacc : ddPre acc) :
    ddPre (cs.foldl (stepSeg false) acc) := by
  induction cs generalizing acc with
  | nil => simpa using hacc
  | cons c cs ih =>
    rw [List.foldl_cons]
    exact ih (stepSeg false acc c) (ddPre_stepSeg acc c hacc)

theorem ddPre_procSegs (cs : List Seg) : ddPre (procSegs false cs) :=
  ddPre_foldl cs [] ⟨0, [], rfl, by simp⟩

theorem procSegs_fix_true (cs : List Seg) (h : ∀ c ∈ cs, c ≠ dotSeg ∧ c ≠ ddSeg) :
    procSegs true cs = cs := by
  unfold procSegs
  rw [foldl_stepSeg_plain true cs [] h]
  simp

theorem procSegs_fix_false (k : Nat) (rest : List Seg)
    (h : ∀ c ∈ rest, c ≠ dotSeg ∧ c ≠ ddSeg) :
    procSegs false (List.replicate k ddSeg ++ rest) = List.replicate k ddSeg ++ rest := by
  unfold procSegs
  rw [List.foldl_append]
  have h1 : (List.replicate k ddSeg).foldl (stepSeg false) [] = List.replicate k ddSeg := by
    have h2 := foldl_stepSeg_dd k 0
    simpa using h2
  rw [h1, foldl_stepSeg_plain false rest _ h]

theorem procSegs_procSegs (ro : Bool) (cs : List Seg) :
    procSegs ro (procSegs ro cs) = procSegs ro cs := by
  cases ro with
  | true =>
    refine procSegs_fix_true _ (fun c hc => ⟨?_, ?_⟩)
    · exact fun e => dot_not_mem_procSegs true cs (e ▸ hc)
    · exact fun e => dd_not_mem_procSegs_rooted cs (e ▸ hc)
  | false =>
    obtain ⟨k, rest, heq, hrest⟩ := ddPre_procSegs cs
    have hdot := dot_not_mem_procSegs false cs
    rw [heq] at hdot ⊢
    refine procSegs_fix_false k rest (fun c hc => ⟨?_, ?_⟩)
    · exact fun e => hdot (e ▸ List.mem_append_right _ hc)
    · exact fun e => hrest (e ▸ hc)

/-! ## Lemmas: rendering segments back into a path -/

theorem intercSlash_cons (c : Seg) (cs : List Seg) (h : cs ≠ []) :
    intercSlash (c :: cs) = c ++ '/' :: intercSlash cs := by
  cases cs with
  | nil => exact absurd rfl h
  | cons d ds => rfl

theorem comps_intercSlash (cs : List Seg) (h : ∀ s ∈ cs, s ≠ [] ∧ '/' ∉ s) :
    comps (intercSlash cs) = cs := by
  induction cs with
  | nil => rfl
  | cons c cs ih =>
    obtain ⟨hc1, hc2⟩ := h c (List.mem_cons_self c cs)
    cases cs with
    | nil => exact comps_no_slash c hc2 hc1
    | cons d ds =>
      rw [intercSlash_cons c (d :: ds) (by simp), comps_append, comps_no_slash c hc2 hc1,
        ih (fun s hs => h s (List.mem_cons_of_mem c hs))]
      rfl

theorem intercSlash_ne_nil (cs : List Seg) (hne : cs ≠ [])
    (h : ∀ s ∈ cs, s ≠ [] ∧ '/' ∉ s) : intercSlash cs ≠ [] := by
  cases cs with
  | nil => exact absurd rfl hne
  | cons c cs =>
    have hc := (h c (List.mem_cons_self c cs)).1
    cases cs with
    | nil => exact hc
    | cons d ds =>
      rw [intercSlash_cons c (d :: ds) (by simp)]
      simp [hc]

theorem isRootedL_append (a b : List Char) (h : a ≠ []) :
    isRootedL (a ++ b) = isRootedL a := by
  cases a with
  | nil => exact absurd rfl h
  | cons c cs => rfl

theorem isRootedL_intercSlash (cs : List Seg) (h : ∀ s ∈ cs, s ≠ [] ∧ '/' ∉ s)
    (hne : cs ≠ []) : isRootedL (intercSlash cs) = false := by
  cases cs with
  | nil => exact absurd rfl hne
  | cons c cs' =>
    obtain ⟨hc1, hc2⟩ := h c (List.mem_cons_self c cs')
    cases c with
    | nil => exact absurd rfl hc1
    | cons ch ct =>
      have hch : ¬ ch = '/' := fun e => hc2 (e ▸ List.mem_cons_self ch ct)
      cases cs' with
      | nil => simp [intercSlash, isRootedL, hch]
      | cons d ds =>
        rw [intercSlash_cons _ _ (by simp), List.cons_append]
        simp [isRootedL, hch]

theorem comps_renderSegs_true (cs : List Seg) (h : ∀ s ∈ cs, s ≠ [] ∧ '/' ∉ s) :
    comps (renderSegs true cs) = cs := by
  unfold renderSegs
  rw [if_pos rfl, comps_cons_slash, comps_intercSlash cs h]

theorem comps_renderSegs_false (cs : List Seg) (h : ∀ s ∈ cs, s ≠ [] ∧ '/' ∉ s)
    (hne : cs ≠ []) : comps (renderSegs false cs) = cs := by
  unfold renderSegs
  rw [if_neg (by simp), if_neg hne, comps_intercSlash cs h]

theorem isRootedL_renderSegs (ro : Bool) (cs : List Seg)
    (h : ∀ s ∈ cs, s ≠ [] ∧ '/' ∉ s) : isRootedL (renderSegs ro cs) = ro := by
  cases ro with
  | true => rfl
  | false =>
    unfold renderSegs
    rw [if_neg (by simp)]
    by_cases hne : cs = []
    · rw [if_pos hne]
      rfl
    · rw [if_neg hne]
      exact isRootedL_intercSlash cs h hne

/-! ## Lemmas: Clean -/

theorem cleanL_eq (l : List Char) (h : l ≠ []) :
    cleanL l = renderSegs (isRootedL l) (procSegs (isRootedL l) (comps l)) := by
  unfold cleanL
  rw [if_neg h]

theorem cleanL_ne_nil (l : List Char) : cleanL l ≠ [] := by
  by_cases hl : l = []
  · subst hl
    decide
  · rw [cleanL_eq l hl]
    unfold renderSegs
    cases hro : isRootedL l with
    | true => simp
    | false =>
      rw [if_neg (by simp)]
      by_cases hne : procSegs false (comps l) = []
      · rw [if_pos hne]
        decide
      · rw [if_neg hne]
        exact intercSlash_ne_nil _ hne (by rw [← hro]; exact wf_procSegs_comps _ l)

theorem isRootedL_cleanL (l : List Char) : isRootedL (cleanL l) = isRootedL l := by
  by_cases hl : l = []
  · subst hl
    decide
  · rw [cleanL_eq l hl]
    exact isRootedL_renderSegs _ _ (wf_procSegs_comps _ l)

theorem procSegs_comps_cleanL (l : List Char) :
    procSegs (isRootedL l) (comps (cleanL l)) = procSegs (isRootedL l) (comps l) := by
  by_cases hl : l = []
  · subst hl
    decide
  · have hwf := wf_procSegs_comps (isRootedL l) l
    rw [cleanL_eq l hl]
    cases hro : isRootedL l with
    | true =>
      rw [hro] at hwf
      rw [comps_renderSegs_true _ hwf]
      exact procSegs_procSegs true _
    | false =>
      rw [hro] at hwf
      by_cases hne : procSegs false (comps l) = []
      · rw [hne]
        decide
      · rw [comps_renderSegs_false _ hwf hne]
        exact procSegs_procSegs false _

theorem cleanL_idem (l : List Char) : cleanL (cleanL l) = cleanL l := by
  by_cases hl : l = []
  · subst hl
    decide
  · rw [cleanL_eq (cleanL l) (cleanL_ne_nil l), isRootedL_cleanL, procSegs_comps_cleanL,
      ← cleanL_eq l hl]

theorem cleanL_append_slash (a b : List Char) (ha : a ≠ []) :
    cleanL (cleanL a ++ '/' :: b) = cleanL (a ++ '/' :: b) := by
  rw [cleanL_eq (cleanL a ++ '/' :: b) (by simp [cleanL_ne_nil a]),
    cleanL_eq (a ++ '/' :: b) (by simp [ha]),
    isRootedL_append _ _ (cleanL_ne_nil a), isRootedL_append _ _ ha, isRootedL_cleanL,
    comps_append, comps_append]
  unfold procSegs
  rw [List.foldl_append, List.foldl_append]
  have h := procSegs_comps_cleanL a
  unfold procSegs at h
  rw [h]

/-! ## Lemmas: Clean and Join on strings -/

theorem str_ne_empty_iff (s : String) : s ≠ "" ↔ s.data ≠ [] := by
  simp [String.ext_iff]

theorem clean_ne_empty (s : String) : clean s ≠ "" := by
  rw [str_ne_empty_iff]
  exact cleanL_ne_nil s.data

theorem join2_eq (a b : String) (ha : a ≠ "") :
    join2 a b = ⟨cleanL (a.data ++ '/' :: b.data)⟩ := by
  unfold join2 goJoin
  rw [show List.dropWhile (fun e => e == "") [a, b] = [a, b] from by
    simp [List.dropWhile_cons, ha]]
  rfl

theorem join3_eq (a b c : String) (ha : a ≠ "") :
    join3 a b c = ⟨cleanL (a.data ++ '/' :: (b.data ++ '/' :: c.data))⟩ := by
  unfold join3 goJoin
  rw [show List.dropWhile (fun e => e == "") [a, b, c] = [a, b, c] from by
    simp [List.dropWhile_cons, ha]]
  rfl

theorem join2_ne_empty (a b : String) (ha : a ≠ "") : join2 a b ≠ "" := by
  rw [join2_eq a b ha, str_ne_empty_iff]
  exact cleanL_ne_nil _

theorem join2_join2_eq_join3 (a b c : String) (ha : a ≠ "") :
    join2 (join2 a b) c = join3 a b c := by
  have ha' : a.data ≠ [] := (str_ne_empty_iff a).mp ha
  rw [join2_eq _ c (join2_ne_empty a b ha), join2_eq a b ha, join3_eq a b c ha]
  show (⟨cleanL (cleanL (a.data ++ '/' :: b.data) ++ '/' :: c.data)⟩ : String) = _
  rw [cleanL_append_slash _ _ (by simp [ha'])]
  rw [List.append_assoc]
  rfl

theorem join2_dot (a : String) (ha : a ≠ "") : join2 a "." = clean a := by
  have ha' : a.data ≠ [] := (str_ne_empty_iff a).mp ha
  rw [join2_eq a "." ha]
  unfold clean
  show (⟨cleanL (a.data ++ '/' :: ['.'])⟩ : String) = _
  rw [cleanL_eq _ (by simp [ha']), cleanL_eq _ ha', isRootedL_append _ _ ha',
    comps_append, show comps ['.'] = [dotSeg] from by decide]
  unfold procSegs
  rw [List.foldl_append]
  rw [show ∀ acc : List Seg, List.foldl (stepSeg (isRootedL a.data)) acc [dotSeg] = acc from
    fun acc => by rw [List.foldl_cons, stepSeg_dot, List.foldl_nil]]

theorem clean_clean (s : String) : clean (clean s) = clean s :=
  congrArg String.mk (cleanL_idem s.data)

theorem clean_plain (s : String) (h : plainName s) : clean s = s := by
  obtain ⟨h1, h2, h3, h4⟩ := h
  unfold clean
  rw [cleanL_eq s.data h1]
  have hro : isRootedL s.data = false := by
    cases hd : s.data with
    | nil => exact absurd hd h1
    | cons c cs =>
      have hc : ¬ c = '/' := fun e => by
        rw [hd] at h2
        exact h2 (e ▸ List.mem_cons_self c cs)
      simp [isRootedL, hc]
  rw [hro, comps_no_slash s.data h2 h1,
    show procSegs false [s.data] = [s.data] from by
      unfold procSegs
      rw [List.foldl_cons, stepSeg_plain false [] s.data h3 h4, List.foldl_nil, List.nil_append]]
  unfold renderSegs
  rw [if_neg (by simp), if_neg (by simp)]
  rfl

theorem join2_plain_dd (c : String) (h : plainName c) : join2 c ".." = "." := by
  obtain ⟨h1, h2, h3, h4⟩ := h
  rw [join2_eq c ".." ((str_ne_empty_iff c).mpr h1)]
  have hro : isRootedL (c.data ++ '/' :: "..".data) = false := by
    rw [isRootedL_append _ _ h1]
    cases hd : c.data with
    | nil => exact absurd hd h1
    | cons x xs =>
      have hx : ¬ x = '/' := fun e => by
        rw [hd] at h2
        exact h2 (e ▸ List.mem_cons_self x xs)
      simp [isRootedL, hx]
  rw [show (⟨cleanL (c.data ++ '/' :: "..".data)⟩ : String) = ⟨cleanL (c.data ++ '/' :: "..".data)⟩ from rfl,
    cleanL_eq _ (by simp [h1]), hro, comps_append, comps_no_slash c.data h2 h1,
    show comps "..".data = [ddSeg] from by decide]
  rw [show procSegs false ([c.data] ++ [ddSeg]) = [] from by
    unfold procSegs
    rw [List.foldl_append]
    rw [show List.foldl (stepSeg false) [] [c.data] = [c.data] from by
      rw [List.foldl_cons, stepSeg_plain false [] c.data h3 h4, List.foldl_nil,
        List.nil_append]]
    rw [List.foldl_cons, List.foldl_nil]
    unfold stepSeg
    rw [if_neg (by decide), if_pos rfl, if_pos (by simp [h4])]
    rfl]
  rfl

/-! ## Lemmas: association lists and the filesystem model -/

theorem lookup_cons_self (k v : String) (l : List (String × String)) :
    ((k, v) :: l).lookup k = some v := by
  simp [List.lookup]

theorem lookup_cons_ne (k a v : String) (l : List (String × String)) (h : ¬ k = a) :
    ((a, v) :: l).lookup k = l.lookup k := by
  have hb : (k == a) = false := by simp [h]
  simp [List.lookup, hb]

theorem lookup_filterOut (k : String) (f : String × String → Bool)
    (l : List (String × String)) (hf : ∀ q : String × String, q.1 = k → f q = false) :
    (l.filter f).lookup k = none := by
  induction l with
  | nil => rfl
  | cons a l ih =>
    rw [List.filter_cons]
    by_cases ha : a.1 = k
    · rw [hf a ha]
      simpa using ih
    · cases hfa : f a with
      | false => simpa using ih
      | true =>
        rw [if_pos rfl]
        rw [show a = (a.1, a.2) from rfl, lookup_cons_ne k a.1 a.2 _ (fun e => ha e.symm)]
        exact ih

theorem lookup_filter_keep (k : String) (f : String × String → Bool)
    (l : List (String × String)) (hf : ∀ q : String × String, q.1 = k → f q = true) :
    (l.filter f).lookup k = l.lookup k := by
  induction l with
  | nil => rfl
  | cons a l ih =>
    rw [List.filter_cons]
    by_cases ha : a.1 = k
    · rw [hf a ha, if_pos rfl]
      rw [show a = (a.1, a.2) from rfl, ha, lookup_cons_self, lookup_cons_self]
    · cases hfa : f a with
      | false =>
        rw [if_neg (by simp [hfa])]
        rw [show a = (a.1, a.2) from rfl, lookup_cons_ne k a.1 a.2 _ (fun e => ha e.symm)]
        exact ih
      | true =>
        rw [if_pos rfl]
        rw [show a = (a.1, a.2) from rfl, lookup_cons_ne k a.1 a.2 _ (fun e => ha e.symm),
          lookup_cons_ne k a.1 a.2 _ (fun e => ha e.symm)]
        exact ih

theorem writeFile_lookup_self (fs : FS) (p c : String) :
    (fs.writeFile p c).lookupF p = some c := by
  unfold FS.writeFile FS.lookupF
  exact lookup_cons_self p c _

theorem writeFile_lookup_ne (fs : FS) (p c q : String) (h : ¬ q = p) :
    (fs.writeFile p c).lookupF q = fs.lookupF q := by
  unfold FS.writeFile FS.lookupF
  rw [lookup_cons_ne q p c _ h]
  exact lookup_filter_keep q _ _ (fun x hx => by simp [hx, h])

theorem mkdirAll_files (fs : FS) (d : String) : (fs.mkdirAll d).files = fs.files := by
  unfold FS.mkdirAll
  split <;> rfl

theorem mkdirAll_lookup (fs : FS) (d p : String) :
    (fs.mkdirAll d).lookupF p = fs.lookupF p := by
  unfold FS.lookupF
  rw [mkdirAll_files]

theorem renameF_writeFile (fs : FS) (o n b : String) :
    (fs.writeFile o b).renameF o n =
      some ⟨(n, b) :: (fs.writeFile o b).files.filter
          (fun q => !(q.1 == o) && !(q.1 == n)), fs.dirs⟩ := by
  unfold FS.renameF
  rw [writeFile_lookup_self]
  rfl

theorem underP_self (t : String) : underP t t = true := by
  simp [underP]

theorem statP_removeAll_under (fs : FS) (t p : String) (h : underP t p = true) :
    (fs.removeAll t).statP p = false := by
  unfold FS.removeAll FS.statP FS.lookupF FS.isDirP
  rw [lookup_filterOut p _ _ (fun q hq => by simp [hq, h])]
  simp only [Option.isSome_none, Bool.false_or]
  rw [List.contains_eq_any_beq]
  simp only [List.any_eq_false]
  intro x hx
  have hmem := List.mem_filter.mp hx
  intro hbeq
  have : p = x := by simpa using hbeq
  subst this
  rw [h] at hmem
  simpa using hmem.2

/-! ## Lemmas: directory and base name of a path -/

theorem dropWhile_append_of_all {α : Type} (p : α → Bool) (xs ys : List α)
    (h : ∀ x ∈ xs, p x = true) : (xs ++ ys).dropWhile p = ys.dropWhile p := by
  induction xs with
  | nil => rfl
  | cons x xs ih =>
    rw [List.cons_append, List.dropWhile_cons, h x (List.mem_cons_self x xs)]
    exact ih (fun y hy => h y (List.mem_cons_of_mem x hy))

theorem takeWhile_append_stop {α : Type} (p : α → Bool) (xs : List α) (d : α) (ys : List α)
    (h : ∀ x ∈ xs, p x = true) (hd : p d = false) : (xs ++ d :: ys).takeWhile p = xs := by
  induction xs with
  | nil =>
    rw [List.nil_append, List.takeWhile_cons, hd]
    simp
  | cons x xs ih =>
    rw [List.cons_append, List.takeWhile_cons, h x (List.mem_cons_self x xs)]
    simp only [if_true]
    rw [ih (fun y hy => h y (List.mem_cons_of_mem x hy))]

theorem takeWhile_all {α : Type} (p : α → Bool) (xs : List α)
    (h : ∀ x ∈ xs, p x = true) : xs.takeWhile p = xs := by
  induction xs with
  | nil => rfl
  | cons x xs ih =>
    rw [List.takeWhile_cons, h x (List.mem_cons_self x xs)]
    simp only [if_true]
    rw [ih (fun y hy => h y (List.mem_cons_of_mem x hy))]

theorem dirOfL_append_no_slash (l t : List Char) (h : '/' ∉ t) :
    dirOfL (l ++ t) = dirOfL l := by
  unfold dirOfL
  rw [List.reverse_append, dropWhile_append_of_all _ t.reverse l.reverse
    (fun x hx => by
      have : ¬ x = '/' := fun e => h (e ▸ List.mem_reverse.mp hx)
      simp [this])]

theorem baseNameL_concat (l x : List Char) (h : '/' ∉ x) :
    baseNameL (l ++ '/' :: x) = x := by
  unfold baseNameL
  rw [List.reverse_append, List.reverse_cons, List.append_assoc,
    List.singleton_append]
  rw [takeWhile_append_stop _ x.reverse '/' l.reverse
    (fun y hy => by
      have : ¬ y = '/' := fun e => h (e ▸ List.mem_reverse.mp hy)
      simp [this]) (by simp)]
  simp

theorem baseNameL_no_slash (x : List Char) (h : '/' ∉ x) : baseNameL x = x := by
  unfold baseNameL
  rw [takeWhile_all _ x.reverse (fun y hy => by
    have : ¬ y = '/' := fun e => h (e ▸ List.mem_reverse.mp hy)
    simp [this])]
  simp

theorem append_tmp_ne (s : String) : ¬ s ++ ".tmp" = s := by
  intro h
  have hlen := congrArg (fun t : String => t.data.length) h
  simp only [String.data_append, List.length_append] at hlen
  have h4 : ".tmp".data.length = 4 := rfl
  rw [h4] at hlen
  omega

theorem dirOf_append_tmp (s : String) : dirOf (s ++ ".tmp") = dirOf s := by
  unfold dirOf
  rw [String.data_append]
  exact congrArg String.mk (dirOfL_append_no_slash s.data ".tmp".data (by decide))

/-! ## Lemmas: the write path -/

theorem goWrite_success {α : Type} (marshal : α → Option String) (root c r : String)
    (v : α) (b : String) (fs : FS) (hc : ¬ c = "") (hr : ¬ r = "")
    (hm : marshal v = some b) :
    goWrite marshal root c r v fs =
      (⟨(join2 (join2 root c) r, b) ::
          ((fs.mkdirAll (join2 root c)).writeFile
              (join2 (join2 root c) r ++ ".tmp") b).files.filter
            (fun q => !(q.1 == join2 (join2 root c) r ++ ".tmp") &&
              !(q.1 == join2 (join2 root c) r)),
        (fs.mkdirAll (join2 root c)).dirs⟩, none) := by
  unfold goWrite
  simp only [if_neg hc, if_neg hr, hm, renameF_writeFile]

theorem goWrite_lookup_fnl {α : Type} (marshal : α → Option String) (root c r : String)
    (v : α) (b : String) (fs : FS) (hc : ¬ c = "") (hr : ¬ r = "")
    (hm : marshal v = some b) :
    (goWrite marshal root c r v fs).1.lookupF (join2 (join2 root c) r) = some b := by
  rw [goWrite_success marshal root c r v b fs hc hr hm]
  unfold FS.lookupF
  exact lookup_cons_self _ _ _

theorem goWrite_lookup_tmp {α : Type} (marshal : α → Option String) (root c r : String)
    (v : α) (b : String) (fs : FS) (hc : ¬ c = "") (hr : ¬ r = "")
    (hm : marshal v = some b) :
    (goWrite marshal root c r v fs).1.lookupF (join2 (join2 root c) r ++ ".tmp") = none := by
  rw [goWrite_success marshal root c r v b fs hc hr hm]
  unfold FS.lookupF
  rw [lookup_cons_ne _ _ _ _ (append_tmp_ne _)]
  exact lookup_filterOut _ _ _ (fun q hq => by simp [hq])

/-! ## Lemmas: base names of joined paths -/

theorem intercSlash_append_single (cs : List Seg) (x : Seg) (h : cs ≠ []) :
    intercSlash (cs ++ [x]) = intercSlash cs ++ '/' :: x := by
  induction cs with
  | nil => exact absurd rfl h
  | cons c cs ih =>
    cases cs with
    | nil => rfl
    | cons d ds =>
      rw [List.cons_append, intercSlash_cons c _ (by simp),
        intercSlash_cons c (d :: ds) (by simp), ih (by simp)]
      simp

theorem baseNameL_renderSegs_concat (ro : Bool) (cs : List Seg) (x : Seg)
    (hwf : ∀ s ∈ cs ++ [x], s ≠ [] ∧ '/' ∉ s) :
    baseNameL (renderSegs ro (cs ++ [x])) = x := by
  have hx := hwf x (List.mem_append_right cs (List.mem_singleton.mpr rfl))
  cases ro with
  | false =>
    unfold renderSegs
    rw [if_neg (by simp), if_neg (by simp)]
    cases cs with
    | nil => simpa using baseNameL_no_slash x hx.2
    | cons c cs' =>
      rw [intercSlash_append_single _ x (by simp)]
      exact baseNameL_concat _ x hx.2
  | true =>
    unfold renderSegs
    rw [if_pos rfl]
    cases cs with
    | nil =>
      rw [show intercSlash ([] ++ [x]) = x from rfl,
        show ('/' :: x : List Char) = [] ++ '/' :: x from rfl]
      exact baseNameL_concat [] x hx.2
    | cons c cs' =>
      rw [intercSlash_append_single _ x (by simp), ← List.cons_append]
      exact baseNameL_concat _ x hx.2

theorem baseName_join2_plain (dir r : String) (hdir : dir ≠ "") (hr : plainName r) :
    baseName (join2 dir r) = r := by
  obtain ⟨h1, h2, h3, h4⟩ := hr
  have hd : dir.data ≠ [] := (str_ne_empty_iff dir).mp hdir
  rw [join2_eq dir r hdir]
  show (⟨baseNameL (cleanL (dir.data ++ '/' :: r.data))⟩ : String) = r
  rw [cleanL_eq _ (by simp [hd]), isRootedL_append _ _ hd, comps_append,
    comps_no_slash r.data h2 h1]
  rw [show procSegs (isRootedL dir.data) (comps dir.data ++ [r.data]) =
      procSegs (isRootedL dir.data) (comps dir.data) ++ [r.data] from by
    unfold procSegs
    rw [List.foldl_append, foldl_stepSeg_plain _ [r.data] _ (by
      intro x hx
      rw [List.mem_singleton.mp hx]
      exact ⟨h3, h4⟩)]]
  rw [baseNameL_renderSegs_concat _ _ _ (by
    intro x hx
    rcases List.mem_append.mp hx with h5 | h5
    · exact wf_procSegs_comps _ dir.data x h5
    · rw [List.mem_singleton.mp h5]
      exact ⟨h1, h2⟩)]

theorem takeWhile_append_all {α : Type} (p : α → Bool) (xs ys : List α)
    (h : ∀ x ∈ xs, p x = true) : (xs ++ ys).takeWhile p = xs ++ ys.takeWhile p := by
  induction xs with
  | nil => rfl
  | cons x xs ih =>
    rw [List.cons_append, List.takeWhile_cons, h x (List.mem_cons_self x xs)]
    simp only [if_true]
    rw [ih (fun y hy => h y (List.mem_cons_of_mem x hy)), List.cons_append]

theorem baseNameL_append_no_slash (l t : List Char) (h : '/' ∉ t) :
    baseNameL (l ++ t) = baseNameL l ++ t := by
  unfold baseNameL
  rw [List.reverse_append, takeWhile_append_all _ t.reverse l.reverse
    (fun x hx => by
      have hne : ¬ x = '/' := fun e => h (e ▸ List.mem_reverse.mp hx)
      simp [hne])]
  rw [List.reverse_append, List.reverse_reverse]

theorem baseName_append_tmp (s : String) : baseName (s ++ ".tmp") = baseName s ++ ".tmp" := by
  unfold baseName
  rw [String.data_append, baseNameL_append_no_slash s.data ".tmp".data (by decide)]
  rfl

theorem join2_empty_left (b : String) (hb : ¬ b = "") : join2 "" b = clean b := by
  unfold join2 goJoin
  rw [show List.dropWhile (fun e => e == "") ["", b] = [b] from by
    simp [List.dropWhile_cons, hb]]
  rfl

theorem join2_ne_empty_of_right (a b : String) (hb : ¬ b = "") : join2 a b ≠ "" := by
  by_cases ha : a = ""
  · rw [ha, join2_empty_left b hb]
    exact clean_ne_empty b
  · exact join2_ne_empty a b ha

/-! ## Lemmas: paths below the home prefix -/

theorem count_slash_no_slash (l : List Char) (h : '/' ∉ l) : l.count '/' = 0 :=
  List.count_eq_zero.mpr h

theorem data_home_one (s : String) :
    ("/home/" ++ s).data = '/' :: ("home".data ++ '/' :: s.data) := by
  rw [String.data_append, show "/home/".data = ['/', 'h', 'o', 'm', 'e', '/'] from rfl,
    show "home".data = ['h', 'o', 'm', 'e'] from rfl]
  rfl

theorem data_home_two (s t : String) :
    ("/home/" ++ s ++ "/" ++ t).data =
      '/' :: ("home".data ++ '/' :: (s.data ++ '/' :: t.data)) := by
  rw [String.data_append, String.data_append, String.data_append,
    List.append_assoc, List.append_assoc,
    show "/home/".data = ['/', 'h', 'o', 'm', 'e', '/'] from rfl,
    show "home".data = ['h', 'o', 'm', 'e'] from rfl,
    show "/".data = ['/'] from rfl]
  rfl

theorem count_home_one (s : String) (h2 : '/' ∉ s.data) :
    ('/' :: ("home".data ++ '/' :: s.data)).count '/' = 2 := by
  rw [show ('/' :: ("home".data ++ '/' :: s.data)) =
      ['/'] ++ "home".data ++ ['/'] ++ s.data from by simp]
  rw [List.count_append, List.count_append, List.count_append,
    count_slash_no_slash s.data h2]
  decide

theorem count_home_two (s t : String) (hs2 : '/' ∉ s.data) (ht2 : '/' ∉ t.data) :
    ('/' :: ("home".data ++ '/' :: (s.data ++ '/' :: t.data))).count '/' = 3 := by
  rw [show ('/' :: ("home".data ++ '/' :: (s.data ++ '/' :: t.data))) =
      ['/'] ++ "home".data ++ ['/'] ++ s.data ++ ['/'] ++ t.data from by simp]
  rw [List.count_append, List.count_append, List.count_append, List.count_append,
    List.count_append, count_slash_no_slash s.data hs2, count_slash_no_slash t.data ht2]
  decide

theorem cleanL_home_one (s : String) (h1 : s.data ≠ []) (h2 : '/' ∉ s.data)
    (h3 : s.data ≠ dotSeg) (h4 : s.data ≠ ddSeg) :
    cleanL ('/' :: ("home".data ++ '/' :: s.data)) =
      '/' :: ("home".data ++ '/' :: s.data) := by
  rw [cleanL_eq _ (by simp)]
  rw [show isRootedL ('/' :: ("home".data ++ '/' :: s.data)) = true from rfl]
  rw [comps_cons_slash, comps_append, comps_no_slash "home".data (by decide) (by decide),
    comps_no_slash s.data h2 h1]
  rw [show procSegs true (["home".data] ++ [s.data]) = ["home".data] ++ [s.data] from
    procSegs_fix_true _ (by
      intro x hx
      rcases List.mem_append.mp hx with hx | hx
      · rw [List.mem_singleton.mp hx]
        exact ⟨by decide, by decide⟩
      · rw [List.mem_singleton.mp hx]
        exact ⟨h3, h4⟩)]
  rfl

theorem cleanL_home_two (s t : String) (hs : plainName s) (ht : plainName t) :
    cleanL ('/' :: ("home".data ++ '/' :: (s.data ++ '/' :: t.data))) =
      '/' :: ("home".data ++ '/' :: (s.data ++ '/' :: t.data)) := by
  rw [cleanL_eq _ (by simp)]
  rw [show isRootedL ('/' :: ("home".data ++ '/' :: (s.data ++ '/' :: t.data))) = true from
    rfl]
  rw [comps_cons_slash, comps_append, comps_no_slash "home".data (by decide) (by decide),
    comps_append, comps_no_slash s.data hs.2.1 hs.1, comps_no_slash t.data ht.2.1 ht.1]
  rw [show procSegs true (["home".data] ++ ([s.data] ++ [t.data])) =
      ["home".data] ++ ([s.data] ++ [t.data]) from
    procSegs_fix_true _ (by
      intro x hx
      rcases List.mem_append.mp hx with hx | hx
      · rw [List.mem_singleton.mp hx]
        exact ⟨by decide, by decide⟩
      · rcases List.mem_append.mp hx with hx | hx
        · rw [List.mem_singleton.mp hx]
          exact ⟨hs.2.2.1, hs.2.2.2⟩
        · rw [List.mem_singleton.mp hx]
          exact ⟨ht.2.2.1, ht.2.2.2⟩)]
  rfl

theorem clean_home_one (s : String) (hs : plainName s) :
    clean ("/home/" ++ s) = "/home/" ++ s := by
  unfold clean
  rw [data_home_one s, cleanL_home_one s hs.1 hs.2.1 hs.2.2.1 hs.2.2.2, ← data_home_one s]

theorem clean_home_two (s t : String) (hs : plainName s) (ht : plainName t) :
    clean ("/home/" ++ s ++ "/" ++ t) = "/home/" ++ s ++ "/" ++ t := by
  unfold clean
  rw [data_home_two s t, cleanL_home_two s t hs ht, ← data_home_two s t]

theorem unsafeDir_home_one (s : String) (hs : plainName s) :
    unsafeDir ("/home/" ++ s) = true := by
  have hcount : ("/home/" ++ s).data.count '/' = 2 := by
    rw [data_home_one s]
    exact count_home_one s hs.2.1
  have hne1 : ¬ ("/home/" ++ s) = "/" := fun h => absurd (h ▸ hcount) (by decide)
  have hne2 : ¬ ("/home/" ++ s) = "C:\\" := fun h => absurd (h ▸ hcount) (by decide)
  have hne3 : ¬ ("/home/" ++ s) = "~" := fun h => absurd (h ▸ hcount) (by decide)
  have hpre : List.isPrefixOf "/home/".data ("/home/" ++ s).data = true := by
    rw [data_home_one s, show "/home/".data = ['/', 'h', 'o', 'm', 'e', '/'] from rfl,
      show "home".data = ['h', 'o', 'm', 'e'] from rfl]
    simp [List.isPrefixOf]
  unfold unsafeDir
  rw [hpre, hcount]
  simp [hne1, hne2, hne3]

theorem unsafeDir_home_two (s t : String) (hs : plainName s) (ht : plainName t) :
    unsafeDir ("/home/" ++ s ++ "/" ++ t) = false := by
  have hcount : ("/home/" ++ s ++ "/" ++ t).data.count '/' = 3 := by
    rw [data_home_two s t]
    exact count_home_two s t hs.2.1 ht.2.1
  have hne1 : ¬ ("/home/" ++ s ++ "/" ++ t) = "/" := fun h => absurd (h ▸ hcount) (by decide)
  have hne2 : ¬ ("/home/" ++ s ++ "/" ++ t) = "C:\\" := fun h =>
    absurd (h ▸ hcount) (by decide)
  have hne3 : ¬ ("/home/" ++ s ++ "/" ++ t) = "~" := fun h => absurd (h ▸ hcount) (by decide)
  unfold unsafeDir
  rw [hcount]
  simp [hne1, hne2, hne3]

theorem goNew_safe_driver (p : String) (fs : FS) (e : Option Err)
    (hclean : clean p = p) (hsafe : unsafeDir p = false) :
    (goNew p fs e).2.1 = some ⟨p, []⟩ := by
  unfold goNew
  simp only [hclean, hsafe]
  by_cases hst : fs.statP p = true
  · simp [hst]
  · have hst' : fs.statP p = false := by simpa using hst
    cases e <;> simp [hst']

/-! ## Lemmas: delete -/

theorem goDelete_eq (root c r : String) (fs : FS)
    (hv : ¬ (clean c = "" ∨ clean c = "/" ∨ clean c = ".")) :
    goDelete root c r fs =
      (if fs.statP (join2 root (join2 (clean c) (clean r))) then
        (fs.removeAll (join2 root (join2 (clean c) (clean r))), none)
      else (fs, none)) := by
  unfold goDelete
  rw [if_neg hv]

/-! ## Claim theorems -/

/-- C1 (code bug, evaluated at the failing input): with a fresh driver and
key "fish", the registry hands out mutex values by copy.  The first caller
receives an unlocked mutex and locks its copy; a second caller asking for
the same key still receives an unlocked mutex, and the registry state is
unchanged by the first lock.  Each caller observes an independent copy, so
the specified invariant — at most one lock instance per key, observed by
all callers — does not hold of the code. -/
theorem c1_lock_copies_not_shared :
    (getOrCreateMutex ⟨[]⟩ "fish").1.locked = false ∧
    (lockMutex (getOrCreateMutex ⟨[]⟩ "fish").1).locked = true ∧
    (getOrCreateMutex (getOrCreateMutex ⟨[]⟩ "fish").2 "fish").1.locked = false ∧
    (getOrCreateMutex (getOrCreateMutex ⟨[]⟩ "fish").2 "fish").2 =
      (getOrCreateMutex ⟨[]⟩ "fish").2 := by
  decide

/-- C2 (code bug, evaluated at the failing input): a schedule interleaving
two `Write("fish", "x", …)` calls with distinct payloads "AAAA" (written in
two chunks) and "BB".  The schedule is a valid interleaving of the two call
programs; both callers acquire the collection mutex without blocking, since
each receives its own unlocked copy; and after both calls complete the
published file holds "BBAA" — a mix of bytes of both payloads, equal to
neither serialized value, contradicting the claimed mutual exclusion. -/
theorem c2_concurrent_writes_interleave :
    projSched true schedC2 = writeProg ["AA", "AA"] ∧
    projSched false schedC2 = writeProg ["BB"] ∧
    "AA" ++ "AA" = "AAAA" ∧
    (runC schedC2).aHold = true ∧
    (runC schedC2).bHold = true ∧
    (runC schedC2).aRen = some true ∧
    (runC schedC2).bRen = some false ∧
    (runC schedC2).fnlContent = some "BBAA".data ∧
    ¬ ("BBAA" = "AAAA") ∧ ¬ ("BBAA" = "BB") := by
  decide

/-- C3 (counterexample): the claim asserts that a path two segments below
the home prefix, such as /home/user/x, is rejected with an unsafe-location
error and that nothing is created.  The code accepts it: the guard only
fires on cleaned paths with the /home/ prefix containing at most two
separators, and /home/user/x has three, so New creates the directory and
returns a driver with no error. -/
theorem c3_counterexample :
    unsafeDir (clean "/home/user/x") = false ∧
    goNew "/home/user/x" ⟨[], []⟩ none =
      (⟨[], ["/home/user/x"]⟩, some ⟨"/home/user/x", []⟩, none) := by
  decide

/-- C10: New never returns a nil driver on a safe path: when the cleaned
root passes the guard, is absent, and its creation fails with error `e`,
New returns `e` paired with a non-nil driver handle, while the root
directory was never created (the state is unchanged).  A caller ignoring
the error therefore holds a handle to a store without a root directory. -/
theorem c10_new_error_with_handle (dir : String) (fs : FS) (e : Err)
    (hsafe : unsafeDir (clean dir) = false) (habs : fs.statP (clean dir) = false) :
    goNew dir fs (some e) = (fs, some ⟨clean dir, []⟩, some e) := by
  unfold goNew
  simp [hsafe, habs]

/-- Witness for C10 at a concrete safe, absent root and a concrete
creation error. -/
theorem c10_witness :
    unsafeDir (clean "/tmp/deep/school") = false ∧
    FS.statP ⟨[], []⟩ (clean "/tmp/deep/school") = false ∧
    goNew "/tmp/deep/school" ⟨[], []⟩ (some (.osErr "permission denied")) =
      (⟨[], []⟩, some ⟨"/tmp/deep/school", []⟩, some (.osErr "permission denied")) :=
  ⟨by decide, by decide,
    c10_new_error_with_handle "/tmp/deep/school" ⟨[], []⟩ (.osErr "permission denied")
      (by decide) (by decide)⟩

/-- C7: Delete is idempotent: for a collection name that survives
validation, if the resolved target does not exist Delete succeeds and
changes nothing; and two successive Delete calls both succeed, the second
leaving its input state unchanged. -/
theorem c7_delete_idempotent (root c r : String) (fs : FS)
    (hv : ¬ (clean c = "" ∨ clean c = "/" ∨ clean c = ".")) :
    (fs.statP (join2 root (join2 (clean c) (clean r))) = false →
      goDelete root c r fs = (fs, none)) ∧
    (goDelete root c r fs).2 = none ∧
    goDelete root c r (goDelete root c r fs).1 = ((goDelete root c r fs).1, none) := by
  refine ⟨fun habs => ?_, ?_, ?_⟩
  · rw [goDelete_eq root c r fs hv, habs]
    simp
  · rw [goDelete_eq root c r fs hv]
    by_cases hst : fs.statP (join2 root (join2 (clean c) (clean r))) = true
    · simp [hst]
    · have hst' : fs.statP (join2 root (join2 (clean c) (clean r))) = false := by
        simpa using hst
      simp [hst']
  · by_cases hst : fs.statP (join2 root (join2 (clean c) (clean r))) = true
    · rw [goDelete_eq root c r fs hv, if_pos hst,
        goDelete_eq root c r _ hv,
        if_neg (by
          rw [statP_removeAll_under fs _ _ (underP_self _)]
          simp)]
    · have hst' : fs.statP (join2 root (join2 (clean c) (clean r))) = false := by
        simpa using hst
      rw [goDelete_eq root c r fs hv, if_neg (by simp [hst']),
        goDelete_eq root c r fs hv, if_neg (by simp [hst'])]

/-- Witness for C7 at a concrete store holding one record. -/
theorem c7_witness :
    ¬ (clean "fish" = "" ∨ clean "fish" = "/" ∨ clean "fish" = ".") ∧
    ((FS.statP ⟨[("/tmp/db/fish/redfish", "x")], ["/tmp/db", "/tmp/db/fish"]⟩
        (join2 "/tmp/db" (join2 (clean "fish") (clean "redfish"))) = false →
      goDelete "/tmp/db" "fish" "redfish"
          ⟨[("/tmp/db/fish/redfish", "x")], ["/tmp/db", "/tmp/db/fish"]⟩ =
        (⟨[("/tmp/db/fish/redfish", "x")], ["/tmp/db", "/tmp/db/fish"]⟩, none)) ∧
     (goDelete "/tmp/db" "fish" "redfish"
        ⟨[("/tmp/db/fish/redfish", "x")], ["/tmp/db", "/tmp/db/fish"]⟩).2 = none ∧
     goDelete "/tmp/db" "fish" "redfish"
        (goDelete "/tmp/db" "fish" "redfish"
          ⟨[("/tmp/db/fish/redfish", "x")], ["/tmp/db", "/tmp/db/fish"]⟩).1 =
       ((goDelete "/tmp/db" "fish" "redfish"
          ⟨[("/tmp/db/fish/redfish", "x")], ["/tmp/db", "/tmp/db/fish"]⟩).1, none)) :=
  ⟨by decide,
    c7_delete_idempotent "/tmp/db" "fish" "redfish"
      ⟨[("/tmp/db/fish/redfish", "x")], ["/tmp/db", "/tmp/db/fish"]⟩ (by decide)⟩

/-- C6: validation performs no filesystem mutation: writes with an empty
collection or resource name fail and return the state unchanged; reads
with empty names fail (read operations are embedded as pure functions of
the state because the source performs no mutation on any read path);
ReadAll of an empty name fails; and ReadAll of a collection whose
directory does not exist fails. -/
theorem c6_validation_no_side_effects {α : Type} (marshal : α → Option String)
    (unmarshal : String → Option α) (root c r : String) (v : α) (fs : FS)
    (hc : ¬ c = "") (hne : fs.statP (join2 root c) = false) :
    goWrite marshal root "" r v fs = (fs, some .missingCollection) ∧
    goWrite marshal root c "" v fs = (fs, some .missingResource) ∧
    goRead unmarshal root "" r fs = .error .missingCollection ∧
    goRead unmarshal root c "" fs = .error .missingResource ∧
    goReadAll root "" fs = .error .missingCollection ∧
    goReadAll root c fs = .error (.dirNotExist (join2 root c)) := by
  refine ⟨rfl, ?_, rfl, ?_, rfl, ?_⟩
  · unfold goWrite
    rw [if_neg hc]
    simp
  · unfold goRead goReadRaw
    rw [if_neg hc]
    simp
  · unfold goReadAll
    rw [if_neg hc]
    simp [hne]

/-- Witness for C6 at a concrete state, names and codec. -/
theorem c6_witness :
    ¬ ("fish" : String) = "" ∧
    FS.statP ⟨[], ["/tmp/db"]⟩ (join2 "/tmp/db" "fish") = false ∧
    (goWrite marshalBool "/tmp/db" "" "redfish" true ⟨[], ["/tmp/db"]⟩ =
        (⟨[], ["/tmp/db"]⟩, some .missingCollection) ∧
      goWrite marshalBool "/tmp/db" "fish" "" true ⟨[], ["/tmp/db"]⟩ =
        (⟨[], ["/tmp/db"]⟩, some .missingResource) ∧
      goRead unmarshalBool "/tmp/db" "" "redfish" ⟨[], ["/tmp/db"]⟩ =
        .error .missingCollection ∧
      goRead unmarshalBool "/tmp/db" "fish" "" ⟨[], ["/tmp/db"]⟩ =
        .error .missingResource ∧
      goReadAll "/tmp/db" "" ⟨[], ["/tmp/db"]⟩ = .error .missingCollection ∧
      goReadAll "/tmp/db" "fish" ⟨[], ["/tmp/db"]⟩ =
        .error (.dirNotExist (join2 "/tmp/db" "fish"))) :=
  ⟨by decide, by decide,
    c6_validation_no_side_effects marshalBool unmarshalBool "/tmp/db" "fish" "redfish"
      true ⟨[], ["/tmp/db"]⟩ (by decide) (by decide)⟩

/-- C5: round trip: for every value that the externally supplied JSON
codec serializes and deserializes back to itself, and all non-empty
collection and resource names, a successful Write followed by Read on the
resulting state succeeds and yields the original value. -/
theorem c5_round_trip {α : Type} (marshal : α → Option String)
    (unmarshal : String → Option α) (root c r : String) (v : α) (b : String) (fs : FS)
    (hroot : ¬ root = "") (hc : ¬ c = "") (hr : ¬ r = "")
    (hm : marshal v = some b) (hu : unmarshal b = some v) :
    (goWrite marshal root c r v fs).2 = none ∧
    goRead unmarshal root c r (goWrite marshal root c r v fs).1 = .ok v := by
  constructor
  · rw [goWrite_success marshal root c r v b fs hc hr hm]
  · unfold goRead goReadRaw
    rw [if_neg hc, if_neg hr]
    have hj : join3 root c r = join2 (join2 root c) r :=
      (join2_join2_eq_join3 root c r hroot).symm
    have hlk := goWrite_lookup_fnl marshal root c r v b fs hc hr hm
    simp [hj, FS.statP, hlk, hu]

/-- Witness for C5 at a concrete store, names, value and codec. -/
theorem c5_witness :
    ¬ ("/tmp/db" : String) = "" ∧ ¬ ("fish" : String) = "" ∧ ¬ ("redfish" : String) = "" ∧
    marshalBool true = some "true" ∧ unmarshalBool "true" = some true ∧
    ((goWrite marshalBool "/tmp/db" "fish" "redfish" true ⟨[], ["/tmp/db"]⟩).2 = none ∧
      goRead unmarshalBool "/tmp/db" "fish" "redfish"
        (goWrite marshalBool "/tmp/db" "fish" "redfish" true ⟨[], ["/tmp/db"]⟩).1 = .ok true) :=
  ⟨by decide, by decide, by decide, by decide, by decide,
    c5_round_trip marshalBool unmarshalBool "/tmp/db" "fish" "redfish" true "true"
      ⟨[], ["/tmp/db"]⟩ (by decide) (by decide) (by decide) (by decide) (by decide)⟩

/-- C4: the atomic publish protocol of Write: for a successful write the
temporary path is the final path with ".tmp" appended — its base name is
the resource name with ".tmp" appended and it lies in the same directory
as the final path; the whole payload is written to the temporary file
while the final path still holds its previous content; the outcome of
Write is exactly the state produced by the single rename of the temporary
file onto the final path (which replaces any file there); and afterwards
the final path holds the complete payload and the temporary path is gone. -/
theorem c4_atomic_publish {α : Type} (marshal : α → Option String) (root c r : String)
    (v : α) (b : String) (fs : FS)
    (hc : ¬ c = "") (hr : plainName r) (hm : marshal v = some b) :
    baseName (join2 (join2 root c) r ++ ".tmp") = r ++ ".tmp" ∧
    dirOf (join2 (join2 root c) r ++ ".tmp") = dirOf (join2 (join2 root c) r) ∧
    ((fs.mkdirAll (join2 root c)).writeFile (join2 (join2 root c) r ++ ".tmp") b).lookupF
        (join2 (join2 root c) r ++ ".tmp") = some b ∧
    ((fs.mkdirAll (join2 root c)).writeFile (join2 (join2 root c) r ++ ".tmp") b).lookupF
        (join2 (join2 root c) r) = fs.lookupF (join2 (join2 root c) r) ∧
    (∃ fs3, ((fs.mkdirAll (join2 root c)).writeFile
          (join2 (join2 root c) r ++ ".tmp") b).renameF
        (join2 (join2 root c) r ++ ".tmp") (join2 (join2 root c) r) = some fs3 ∧
      goWrite marshal root c r v fs = (fs3, none)) ∧
    (goWrite marshal root c r v fs).1.lookupF (join2 (join2 root c) r) = some b ∧
    (goWrite marshal root c r v fs).1.lookupF (join2 (join2 root c) r ++ ".tmp") = none := by
  have hrne : ¬ r = "" := fun e => hr.1 (by rw [e])
  refine ⟨?_, dirOf_append_tmp _, writeFile_lookup_self _ _ _, ?_, ?_, ?_, ?_⟩
  · rw [baseName_append_tmp, baseName_join2_plain _ r (join2_ne_empty_of_right root c hc) hr]
  · rw [writeFile_lookup_ne _ _ _ _ (fun h => append_tmp_ne _ h.symm), mkdirAll_lookup]
  · exact ⟨_, renameF_writeFile _ _ _ b, goWrite_success marshal root c r v b fs hc hrne hm⟩
  · exact goWrite_lookup_fnl marshal root c r v b fs hc hrne hm
  · exact goWrite_lookup_tmp marshal root c r v b fs hc hrne hm

/-- Witness for C4 at a concrete store, names, value and codec. -/
theorem c4_witness :
    ¬ ("fish" : String) = "" ∧ plainName "redfish" ∧ marshalBool true = some "true" ∧
    (baseName (join2 (join2 "/tmp/db" "fish") "redfish" ++ ".tmp") = "redfish" ++ ".tmp" ∧
      dirOf (join2 (join2 "/tmp/db" "fish") "redfish" ++ ".tmp") =
        dirOf (join2 (join2 "/tmp/db" "fish") "redfish") ∧
      ((FS.mkdirAll ⟨[], ["/tmp/db"]⟩ (join2 "/tmp/db" "fish")).writeFile
          (join2 (join2 "/tmp/db" "fish") "redfish" ++ ".tmp") "true").lookupF
        (join2 (join2 "/tmp/db" "fish") "redfish" ++ ".tmp") = some "true" ∧
      ((FS.mkdirAll ⟨[], ["/tmp/db"]⟩ (join2 "/tmp/db" "fish")).writeFile
          (join2 (join2 "/tmp/db" "fish") "redfish" ++ ".tmp") "true").lookupF
        (join2 (join2 "/tmp/db" "fish") "redfish") =
        FS.lookupF ⟨[], ["/tmp/db"]⟩ (join2 (join2 "/tmp/db" "fish") "redfish") ∧
      (∃ fs3, ((FS.mkdirAll ⟨[], ["/tmp/db"]⟩ (join2 "/tmp/db" "fish")).writeFile
            (join2 (join2 "/tmp/db" "fish") "redfish" ++ ".tmp") "true").renameF
          (join2 (join2 "/tmp/db" "fish") "redfish" ++ ".tmp")
          (join2 (join2 "/tmp/db" "fish") "redfish") = some fs3 ∧
        goWrite marshalBool "/tmp/db" "fish" "redfish" true ⟨[], ["/tmp/db"]⟩ = (fs3, none)) ∧
      (goWrite marshalBool "/tmp/db" "fish" "redfish" true ⟨[], ["/tmp/db"]⟩).1.lookupF
        (join2 (join2 "/tmp/db" "fish") "redfish") = some "true" ∧
      (goWrite marshalBool "/tmp/db" "fish" "redfish" true ⟨[], ["/tmp/db"]⟩).1.lookupF
        (join2 (join2 "/tmp/db" "fish") "redfish" ++ ".tmp") = none) :=
  ⟨by decide, by decide, by decide,
    c4_atomic_publish marshalBool "/tmp/db" "fish" "redfish" true "true" ⟨[], ["/tmp/db"]⟩
      (by decide) (by decide) (by decide)⟩

/-- C8: collection-wide delete: for a cleaned, valid collection name whose
directory exists, Delete(c, "") succeeds, removes the collection directory
and everything previously written under it, and a subsequent ReadAll(c)
fails with the collection-directory-does-not-exist error. -/
theorem c8_delete_collection (root c : String) (fs : FS)
    (hcc : clean c = c) (hv : ¬ (c = "" ∨ c = "/" ∨ c = "."))
    (hex : fs.statP (join2 root c) = true) :
    goDelete root c "" fs = (fs.removeAll (join2 root c), none) ∧
    (∀ p, underP (join2 root c) p = true →
      (goDelete root c "" fs).1.statP p = false) ∧
    goReadAll root c (goDelete root c "" fs).1 =
      .error (.dirNotExist (join2 root c)) := by
  have hcne : ¬ c = "" := fun e => hv (Or.inl e)
  have hkey : goDelete root c "" fs = (fs.removeAll (join2 root c), none) := by
    rw [goDelete_eq root c "" fs (by rw [hcc]; exact hv)]
    rw [show clean ("" : String) = "." from by decide, hcc, join2_dot c hcne, hcc]
    rw [if_pos hex]
  refine ⟨hkey, ?_, ?_⟩
  · intro p hp
    rw [hkey]
    exact statP_removeAll_under fs _ p hp
  · rw [hkey]
    unfold goReadAll
    rw [if_neg hcne]
    simp [statP_removeAll_under fs _ _ (underP_self _)]

/-- Witness for C8 at a concrete store holding two records in the
collection. -/
theorem c8_witness :
    clean "fish" = "fish" ∧
    ¬ (("fish" : String) = "" ∨ ("fish" : String) = "/" ∨ ("fish" : String) = ".") ∧
    FS.statP ⟨[("/tmp/db/fish/0", "a"), ("/tmp/db/fish/1", "b")], ["/tmp/db", "/tmp/db/fish"]⟩
      (join2 "/tmp/db" "fish") = true ∧
    (goDelete "/tmp/db" "fish" ""
        ⟨[("/tmp/db/fish/0", "a"), ("/tmp/db/fish/1", "b")], ["/tmp/db", "/tmp/db/fish"]⟩ =
      (FS.removeAll ⟨[("/tmp/db/fish/0", "a"), ("/tmp/db/fish/1", "b")],
          ["/tmp/db", "/tmp/db/fish"]⟩ (join2 "/tmp/db" "fish"), none) ∧
     (∀ p, underP (join2 "/tmp/db" "fish") p = true →
       (goDelete "/tmp/db" "fish" ""
          ⟨[("/tmp/db/fish/0", "a"), ("/tmp/db/fish/1", "b")],
            ["/tmp/db", "/tmp/db/fish"]⟩).1.statP p = false) ∧
     goReadAll "/tmp/db" "fish"
        (goDelete "/tmp/db" "fish" ""
          ⟨[("/tmp/db/fish/0", "a"), ("/tmp/db/fish/1", "b")],
            ["/tmp/db", "/tmp/db/fish"]⟩).1 =
       .error (.dirNotExist (join2 "/tmp/db" "fish"))) :=
  ⟨by decide, by decide, by decide,
    c8_delete_collection "/tmp/db" "fish"
      ⟨[("/tmp/db/fish/0", "a"), ("/tmp/db/fish/1", "b")], ["/tmp/db", "/tmp/db/fish"]⟩
      (by decide) (by decide) (by decide)⟩

/-- C9: Delete does not confine its target under root/collection: for any
plain collection name, passing the resource ".." makes the cleaned join
collapse to the database root itself, so when the root exists
Delete(c, "..") passes validation, succeeds, and recursively removes the
entire store. -/
theorem c9_delete_dotdot_wipes_root (root0 c : String) (fs : FS)
    (hc : plainName c) (hex : fs.statP (clean root0) = true) :
    goDelete (clean root0) c ".." fs = (fs.removeAll (clean root0), none) ∧
    ∀ p, underP (clean root0) p = true →
      (goDelete (clean root0) c ".." fs).1.statP p = false := by
  obtain ⟨h1, h2, h3, h4⟩ := hc
  have hcc : clean c = c := clean_plain c ⟨h1, h2, h3, h4⟩
  have hv : ¬ (clean c = "" ∨ clean c = "/" ∨ clean c = ".") := by
    rw [hcc]
    push_neg
    refine ⟨fun e => h1 (by rw [e]), fun e => h2 (by rw [e]; decide),
      fun e => h3 (by rw [e]; decide)⟩
  have hkey : goDelete (clean root0) c ".." fs = (fs.removeAll (clean root0), none) := by
    rw [goDelete_eq (clean root0) c ".." fs hv]
    rw [hcc, show clean (".." : String) = ".." from by decide,
      join2_plain_dd c ⟨h1, h2, h3, h4⟩,
      join2_dot (clean root0) (clean_ne_empty root0), clean_clean]
    rw [if_pos hex]
  exact ⟨hkey, fun p hp => by
    rw [hkey]
    exact statP_removeAll_under fs _ p hp⟩

/-- Witness for C9 at a concrete store: deleting ("fish", "..") removes
the whole database root. -/
theorem c9_witness :
    plainName "fish" ∧
    FS.statP ⟨[("/tmp/db/fish/redfish", "x")], ["/tmp/db", "/tmp/db/fish"]⟩
      (clean "/tmp/db") = true ∧
    (goDelete (clean "/tmp/db") "fish" ".."
        ⟨[("/tmp/db/fish/redfish", "x")], ["/tmp/db", "/tmp/db/fish"]⟩ =
      (FS.removeAll ⟨[("/tmp/db/fish/redfish", "x")], ["/tmp/db", "/tmp/db/fish"]⟩
        (clean "/tmp/db"), none) ∧
     ∀ p, underP (clean "/tmp/db") p = true →
       (goDelete (clean "/tmp/db") "fish" ".."
          ⟨[("/tmp/db/fish/redfish", "x")],
            ["/tmp/db", "/tmp/db/fish"]⟩).1.statP p = false) :=
  ⟨by decide, by decide,
    c9_delete_dotdot_wipes_root "/tmp/db" "fish"
      ⟨[("/tmp/db/fish/redfish", "x")], ["/tmp/db", "/tmp/db/fish"]⟩
      (by decide) (by decide)⟩

/-- C3 (amended): New rejects exactly the cleaned paths "/", "C:\\", the
literal "~", and paths with the /home/ prefix containing at most two
separators — i.e. paths exactly one segment below /home.  A path two
segments below the home prefix, such as /home/user/x, is accepted: the
guard does not fire and New proceeds to return a driver handle for it. -/
theorem c3_amended_guard (s t : String) (hs : plainName s) (ht : plainName t)
    (fs : FS) (e : Option Err) :
    goNew "/" fs e = (fs, none, some .unsafePath) ∧
    goNew "C:\\" fs e = (fs, none, some .unsafePath) ∧
    goNew "~" fs e = (fs, none, some .unsafePath) ∧
    clean ("/home/" ++ s) = "/home/" ++ s ∧
    unsafeDir ("/home/" ++ s) = true ∧
    goNew ("/home/" ++ s) fs e = (fs, none, some .unsafePath) ∧
    clean ("/home/" ++ s ++ "/" ++ t) = "/home/" ++ s ++ "/" ++ t ∧
    unsafeDir ("/home/" ++ s ++ "/" ++ t) = false ∧
    (goNew ("/home/" ++ s ++ "/" ++ t) fs e).2.1 =
      some ⟨"/home/" ++ s ++ "/" ++ t, []⟩ := by
  refine ⟨?_, ?_, ?_, clean_home_one s hs, unsafeDir_home_one s hs, ?_,
    clean_home_two s t hs ht, unsafeDir_home_two s t hs ht,
    goNew_safe_driver _ fs e (clean_home_two s t hs ht) (unsafeDir_home_two s t hs ht)⟩
  · unfold goNew
    rw [show clean "/" = "/" from by decide]
    simp [show unsafeDir "/" = true from by decide]
  · unfold goNew
    rw [show clean "C:\\" = "C:\\" from by decide]
    simp [show unsafeDir "C:\\" = true from by decide]
  · unfold goNew
    rw [show clean "~" = "~" from by decide]
    simp [show unsafeDir "~" = true from by decide]
  · unfold goNew
    rw [clean_home_one s hs]
    simp [unsafeDir_home_one s hs]

/-- Witness for the amended C3 at the concrete names user and x. -/
theorem c3_amended_witness :
    plainName "user" ∧ plainName "x" ∧
    (goNew "/" ⟨[], []⟩ none = (⟨[], []⟩, none, some .unsafePath) ∧
      goNew "C:\\" ⟨[], []⟩ none = (⟨[], []⟩, none, some .unsafePath) ∧
      goNew "~" ⟨[], []⟩ none = (⟨[], []⟩, none, some .unsafePath) ∧
      clean ("/home/" ++ "user") = "/home/" ++ "user" ∧
      unsafeDir ("/home/" ++ "user") = true ∧
      goNew ("/home/" ++ "user") ⟨[], []⟩ none = (⟨[], []⟩, none, some .unsafePath) ∧
      clean ("/home/" ++ "user" ++ "/" ++ "x") = "/home/" ++ "user" ++ "/" ++ "x" ∧
      unsafeDir ("/home/" ++ "user" ++ "/" ++ "x") = false ∧
      (goNew ("/home/" ++ "user" ++ "/" ++ "x") ⟨[], []⟩ none).2.1 =
        some ⟨"/home/" ++ "user" ++ "/" ++ "x", []⟩) :=
  ⟨by decide, by decide,
    c3_amended_guard "user" "x" (by decide) (by decide) ⟨[], []⟩ none⟩

end Scribble
